import Mathlib

/-!
Verification of the fountain-demo repository: the particle simulator
(src/particles.js) and the 4x4 transform library (src/transforms.js).

All JavaScript numbers are modelled as exact rationals; arrays become
lists or stores; the per-particle loop body of update becomes a pure
function on one particle's state, since the loop touches only the
slots of the current index.
-/

namespace Particles

/-- A 3-component vector, one particle's slice of the flat Float32Array
buffers of src/particles.js (offset, offset+1, offset+2). -/
structure Vec3 where
  x : ℚ
  y : ℚ
  z : ℚ
deriving DecidableEq, Repr

/-- The persistent per-particle state of src/particles.js: the slices of
startPositions, startVelocities and startTimes belonging to one index i. -/
structure Particle where
  startPosition : Vec3
  startVelocity : Vec3
  startTime : ℚ
deriving DecidableEq, Repr

/-- Gravitational constant of src/particles.js line 6: var G = 9.8e-6. -/
def G : ℚ := 9.8e-6

/-- Ground level of src/particles.js line 13: var groundLevel = 0. -/
def groundLevel : ℚ := 0

/-- Damping factor applied to the reflected vertical velocity,
src/particles.js line 54. -/
def damping : ℚ := 0.4

/-- Result of one iteration of the update loop for one particle: the
position written to positions[offset..offset+2] and the new persistent
state. -/
structure StepResult where
  position : Vec3
  particle : Particle
deriving DecidableEq, Repr

/-- One iteration of the loop body of update(time) in src/particles.js,
lines 37-59, for the particle at index i:
dt is time - startTimes[i] clamped to be nonnegative; the free-flight
position is computed componentwise; if its y component is below
groundLevel the bounce branch runs: startPosition.x and startPosition.z
take the computed position, both the written position.y and
startPosition.y are set to groundLevel, the vertical start velocity
becomes 0.4 * -(startVelocity.y - G * dt) while the horizontal
components are left unchanged (the re-randomizing assignments are
commented out in the source), and startTime is reset to time. -/
def updateParticle (p : Particle) (time : ℚ) : StepResult :=
  let dt0 := time - p.startTime
  let dt := if dt0 > 0 then dt0 else 0
  let px := p.startPosition.x + dt * p.startVelocity.x
  let py := p.startPosition.y + dt * p.startVelocity.y - G * dt * dt / 2
  let pz := p.startPosition.z + dt * p.startVelocity.z
  if py < groundLevel then
    { position := ⟨px, groundLevel, pz⟩
      particle :=
        { startPosition := ⟨px, groundLevel, pz⟩
          startVelocity := ⟨p.startVelocity.x,
                            damping * -(p.startVelocity.y - G * dt),
                            p.startVelocity.z⟩
          startTime := time } }
  else
    { position := ⟨px, py, pz⟩
      particle := p }

end Particles

namespace Particles

/-- The source clamps dt with a conditional (dt > 0 ? dt : 0, line 38);
this equals max 0 dt. -/
theorem clamp_eq_max (x : ℚ) : (if x > 0 then x else 0) = max 0 x := by
  rcases le_or_lt x 0 with h | h
  · rw [if_neg (not_lt.mpr h), max_eq_left h]
  · rw [if_pos h, max_eq_right h.le]

/-- C1: the position written by update obeys the free-flight law with
dt = max 0 (time - startTime): the x and z components always, and the y
component whenever the free-flight value does not fall below ground
level, i.e. before the bounce correction overwrites it. -/
theorem update_free_flight_law (p : Particle) (t : ℚ) :
    (updateParticle p t).position.x
      = p.startPosition.x + max 0 (t - p.startTime) * p.startVelocity.x ∧
    (updateParticle p t).position.z
      = p.startPosition.z + max 0 (t - p.startTime) * p.startVelocity.z ∧
    (groundLevel ≤ p.startPosition.y + max 0 (t - p.startTime) * p.startVelocity.y
        - G * (max 0 (t - p.startTime)) ^ 2 / 2 →
      (updateParticle p t).position.y
        = p.startPosition.y + max 0 (t - p.startTime) * p.startVelocity.y
            - G * (max 0 (t - p.startTime)) ^ 2 / 2) := by
  simp only [updateParticle, clamp_eq_max]
  set dt := max 0 (t - p.startTime) with hdtdef
  split_ifs with hb
  · refine ⟨rfl, rfl, fun hge => ?_⟩
    exfalso
    have hAB : p.startPosition.y + dt * p.startVelocity.y - G * dt ^ 2 / 2
        = p.startPosition.y + dt * p.startVelocity.y - G * dt * dt / 2 := by ring
    rw [hAB] at hge
    exact absurd hb (not_lt.mpr hge)
  · refine ⟨rfl, rfl, fun _ => ?_⟩
    show p.startPosition.y + dt * p.startVelocity.y - G * dt * dt / 2
        = p.startPosition.y + dt * p.startVelocity.y - G * dt ^ 2 / 2
    ring

/-- Witness for C1 at a concrete particle and time where no bounce
occurs. -/
theorem update_free_flight_law_witness :
    (updateParticle ⟨⟨0, 0, 0⟩, ⟨1, 1, 1⟩, 0⟩ 1).position.y
      = (0 : ℚ) + max 0 ((1 : ℚ) - 0) * 1 - G * (max 0 ((1 : ℚ) - 0)) ^ 2 / 2 :=
  (update_free_flight_law ⟨⟨0, 0, 0⟩, ⟨1, 1, 1⟩, 0⟩ 1).2.2 (by norm_num [G, groundLevel])

/-- C2: after update the written y position is never below ground level:
either the free-flight value stayed at or above groundLevel, or the
bounce branch clamped it to groundLevel exactly. -/
theorem update_position_y_ge_groundLevel (p : Particle) (t : ℚ) :
    groundLevel ≤ (updateParticle p t).position.y := by
  simp only [updateParticle, clamp_eq_max]
  split_ifs with hb
  · exact le_refl groundLevel
  · exact not_lt.mp hb

/-- If the free-flight y value falls below ground level while the
start position is at or above ground level, the elapsed time since the
start of the segment is strictly positive, so the clamped dt coincides
with t - startTime. -/
theorem bounce_implies_dt_pos (p : Particle) (t : ℚ)
    (hsp : groundLevel ≤ p.startPosition.y)
    (hb : p.startPosition.y + max 0 (t - p.startTime) * p.startVelocity.y
        - G * (max 0 (t - p.startTime)) ^ 2 / 2 < groundLevel) :
    0 < t - p.startTime := by
  by_contra hneg
  push_neg at hneg
  rw [max_eq_left hneg] at hb
  norm_num at hb
  linarith

/-- C3: when the free-flight y value crosses below ground level, the
bounce branch sets the new start position to the bounce point with its
y component exactly at ground level, replaces the vertical start
velocity by damping times the negated impact velocity
startVelocity.y - G * dt with dt = t - startTime, leaves both
horizontal velocity components unchanged, and resets startTime to the
current time. The hypothesis hsp is the reachable-state invariant: the
start position never lies below ground level (it is zero-initialized
with groundLevel = 0 and every bounce rewrites its y to groundLevel). -/
theorem update_bounce_transition (p : Particle) (t : ℚ)
    (hsp : groundLevel ≤ p.startPosition.y)
    (hb : p.startPosition.y + max 0 (t - p.startTime) * p.startVelocity.y
        - G * (max 0 (t - p.startTime)) ^ 2 / 2 < groundLevel) :
    (updateParticle p t).particle.startPosition.x
      = p.startPosition.x + (t - p.startTime) * p.startVelocity.x ∧
    (updateParticle p t).particle.startPosition.y = groundLevel ∧
    (updateParticle p t).particle.startPosition.z
      = p.startPosition.z + (t - p.startTime) * p.startVelocity.z ∧
    (updateParticle p t).particle.startVelocity.x = p.startVelocity.x ∧
    (updateParticle p t).particle.startVelocity.y
      = damping * -(p.startVelocity.y - G * (t - p.startTime)) ∧
    (updateParticle p t).particle.startVelocity.z = p.startVelocity.z ∧
    (updateParticle p t).particle.startTime = t := by
  have hpos : 0 < t - p.startTime := bounce_implies_dt_pos p t hsp hb
  have hdt : max 0 (t - p.startTime) = t - p.startTime := max_eq_right hpos.le
  rw [hdt] at hb
  simp only [updateParticle, clamp_eq_max, hdt]
  rw [if_pos (by nlinarith [hb])]
  exact ⟨rfl, rfl, rfl, rfl, rfl, rfl, rfl⟩

/-- Witness for C3 at a concrete particle and time where the bounce
branch fires. -/
theorem update_bounce_transition_witness :
    groundLevel ≤ ((⟨⟨0, 0, 0⟩, ⟨0, 1, 0⟩, 0⟩ : Particle)).startPosition.y ∧
    ((⟨⟨0, 0, 0⟩, ⟨0, 1, 0⟩, 0⟩ : Particle)).startPosition.y
        + max 0 ((1000000 : ℚ) - ((⟨⟨0, 0, 0⟩, ⟨0, 1, 0⟩, 0⟩ : Particle)).startTime)
          * ((⟨⟨0, 0, 0⟩, ⟨0, 1, 0⟩, 0⟩ : Particle)).startVelocity.y
        - G * (max 0 ((1000000 : ℚ)
            - ((⟨⟨0, 0, 0⟩, ⟨0, 1, 0⟩, 0⟩ : Particle)).startTime)) ^ 2 / 2
      < groundLevel ∧
    (updateParticle ⟨⟨0, 0, 0⟩, ⟨0, 1, 0⟩, 0⟩ 1000000).particle.startTime = 1000000 :=
  ⟨by norm_num [groundLevel], by norm_num [G, groundLevel],
    (update_bounce_transition ⟨⟨0, 0, 0⟩, ⟨0, 1, 0⟩, 0⟩ 1000000
      (by norm_num [groundLevel]) (by norm_num [G, groundLevel])).2.2.2.2.2.2⟩

/-- The whole mutable state of the simulator module in src/particles.js:
the four flat buffers, viewed as lists of per-particle slices. -/
structure SimState where
  positions : List Vec3
  startPositions : List Vec3
  startVelocities : List Vec3
  startTimes : List ℚ
deriving DecidableEq, Repr

/-- Truncation toward zero, the integer conversion performed by the
bitwise or with 0 in JavaScript before the 32-bit wrap. -/
def jsTrunc (q : ℚ) : ℤ := if 0 ≤ q then ⌊q⌋ else -⌊-q⌋

/-- The ToInt32 conversion applied by the bitwise or with 0 at
src/particles.js line 68: truncate toward zero, then wrap into the
signed 32-bit range. -/
def jsToInt32 (q : ℚ) : ℤ := (jsTrunc q + 2 ^ 31) % 2 ^ 32 - 2 ^ 31

/-- One canvas fillRect call issued by render, src/particles.js lines
67-75: the red channel of the fill style and the rectangle geometry,
all computed from one particle position. (In the rational model a zero
denominator in the size formula yields 0 rather than an IEEE infinity;
no claim depends on that case.) -/
structure DrawCmd where
  red : ℤ
  x : ℚ
  y : ℚ
  w : ℚ
  h : ℚ
deriving DecidableEq, Repr

/-- The drawing data render derives from one particle position,
src/particles.js lines 67-75. -/
def drawParticle (pos : Vec3) : DrawCmd :=
  let size := 40 / (5 + 0.5 * pos.z)
  let r := jsToInt32 (255 * (pos.y / 20))
  { red := r
    x := 320 - size / 2 + 12 * pos.x
    y := 440 - size / 2 - 12 * pos.y
    w := size
    h := size }

/-- render of src/particles.js lines 63-77: clears the canvas and draws
one filled square per particle from the positions buffer. It performs
no assignment to any simulator buffer, so the model returns the state
unchanged together with the draw commands. -/
def render (s : SimState) : SimState × List DrawCmd :=
  (s, s.positions.map drawParticle)

/-- C9: render never mutates simulator state: the positions,
startPositions, startVelocities and startTimes buffers after render are
exactly the buffers before it. -/
theorem render_preserves_state (s : SimState) :
    (render s).1.positions = s.positions ∧
    (render s).1.startPositions = s.startPositions ∧
    (render s).1.startVelocities = s.startVelocities ∧
    (render s).1.startTimes = s.startTimes :=
  ⟨rfl, rfl, rfl, rfl⟩

/-- C10: the console assert at src/particles.js line 56 holds whenever
the bounce branch runs, given the invariant that the start position sits
exactly at ground level: the clamped dt is then strictly positive, the
impact velocity startVelocity.y - G * dt is strictly negative, and the
rebound vertical velocity written to startVelocities is strictly
positive. -/
theorem update_bounce_assert (p : Particle) (t : ℚ)
    (hsp : p.startPosition.y = groundLevel)
    (hb : p.startPosition.y + max 0 (t - p.startTime) * p.startVelocity.y
        - G * (max 0 (t - p.startTime)) ^ 2 / 2 < groundLevel) :
    0 < max 0 (t - p.startTime) ∧
    p.startVelocity.y - G * max 0 (t - p.startTime) < 0 ∧
    (updateParticle p t).particle.startVelocity.y
      = damping * -(p.startVelocity.y - G * max 0 (t - p.startTime)) ∧
    0 < (updateParticle p t).particle.startVelocity.y := by
  have hpos : 0 < t - p.startTime := bounce_implies_dt_pos p t hsp.ge hb
  have hdt : max 0 (t - p.startTime) = t - p.startTime := max_eq_right hpos.le
  rw [hdt] at hb ⊢
  have hG : (0 : ℚ) < G := by norm_num [G]
  have himp : p.startVelocity.y - G * (t - p.startTime) < 0 := by
    nlinarith [hb, hsp, mul_pos hpos hpos, mul_pos hG hpos]
  have hdamp : (0 : ℚ) < damping := by norm_num [damping]
  refine ⟨hpos, himp, ?_, ?_⟩
  · simp only [updateParticle, clamp_eq_max, hdt]
    rw [if_pos (by nlinarith [hb])]
  · simp only [updateParticle, clamp_eq_max, hdt]
    rw [if_pos (by nlinarith [hb])]
    show 0 < damping * -(p.startVelocity.y - G * (t - p.startTime))
    nlinarith [himp, hdamp]

/-- Witness for C10 at a concrete particle and time where the bounce
branch fires. -/
theorem update_bounce_assert_witness :
    ((⟨⟨0, 0, 0⟩, ⟨0, 1, 0⟩, 0⟩ : Particle)).startPosition.y = groundLevel ∧
    ((⟨⟨0, 0, 0⟩, ⟨0, 1, 0⟩, 0⟩ : Particle)).startPosition.y
        + max 0 ((1000000 : ℚ) - ((⟨⟨0, 0, 0⟩, ⟨0, 1, 0⟩, 0⟩ : Particle)).startTime)
          * ((⟨⟨0, 0, 0⟩, ⟨0, 1, 0⟩, 0⟩ : Particle)).startVelocity.y
        - G * (max 0 ((1000000 : ℚ)
            - ((⟨⟨0, 0, 0⟩, ⟨0, 1, 0⟩, 0⟩ : Particle)).startTime)) ^ 2 / 2
      < groundLevel ∧
    0 < (updateParticle ⟨⟨0, 0, 0⟩, ⟨0, 1, 0⟩, 0⟩ 1000000).particle.startVelocity.y :=
  ⟨by norm_num [groundLevel], by norm_num [G, groundLevel],
    (update_bounce_assert ⟨⟨0, 0, 0⟩, ⟨0, 1, 0⟩, 0⟩ 1000000
      (by norm_num [groundLevel]) (by norm_num [G, groundLevel])).2.2.2⟩

end Particles

namespace Transforms

/-- A 4x4 matrix of src/transforms.js. The source stores a matrix as a
flat array of 16 numbers in column-major order, the element in row i
and column j sitting at flat index 4 * j + i (file header comment,
lines 1-13); here the entry at row i, column j is the function value at
i, j. -/
abbrev Mat := Fin 4 → Fin 4 → ℚ

/-- The IDENTITY constant of src/transforms.js lines 30-35: ones on the
diagonal, zeros elsewhere. -/
def IDENTITY : Mat := fun i j => if i = j then 1 else 0

/-- The inner triple loop of multiplyMatrices, src/transforms.js lines
211-219: the element of the product at flat index 4 * j + i is the sum
over k of matrix1 at 4 * k + i times matrix2 at 4 * j + k, i.e. entry
i j is the sum over k of m1 i k * m2 k j. -/
def mulMat (m1 m2 : Mat) : Mat :=
  fun i j => ∑ k : Fin 4, m1 i k * m2 k j

/-- multiplyMatrices of src/transforms.js lines 200-224: the last
argument is popped as the initial accumulator and the remaining
arguments are folded in from the right, each multiplying the
accumulator from the left, so k arguments compose as
M1 * (M2 * (... * Mk)). With zero arguments the pop on the empty
argument array yields the undefined value, the while loop never runs,
and the function returns that undefined value without throwing;
undefined is modelled as none. -/
def multiplyMatrices : List Mat → Option Mat
  | [] => none
  | [m] => some m
  | m :: rest => (multiplyMatrices rest).map (mulMat m)

/-- The left-nested product M1 * (M2 * (... * Mk)) that the argument
loop of multiplyMatrices accumulates for at least one argument. -/
def matChain : Mat → List Mat → Mat
  | m, [] => m
  | m, m2 :: ms => mulMat m (matChain m2 ms)

/-- On a nonempty argument list multiplyMatrices returns the
left-nested product of its arguments. -/
theorem multiplyMatrices_cons : ∀ (ms : List Mat) (m : Mat),
    multiplyMatrices (m :: ms) = some (matChain m ms) := by
  intro ms
  induction ms with
  | nil => intro m; rfl
  | cons m2 ms ih =>
    intro m
    show (multiplyMatrices (m2 :: ms)).map (mulMat m) = _
    rw [ih m2]
    rfl

/-- The per-vertex computation of applyToVertices, src/transforms.js
lines 257-268: destination component i is
m(i,1) * sx + m(i,2) * sy + m(i,3) * sz + m(i,4) * sw, where the source
reads the sixteen locals m11..m44 from the flat matrix (flat index
4 * j + i for row i+1, column j+1). -/
def applyToVertex (m : Mat) (v : Fin 4 → ℚ) : Fin 4 → ℚ :=
  fun i => ∑ j : Fin 4, m i j * v j

/-- C4: applying the product of two matrices to a vertex equals
applying the right matrix first and then the left one; more generally,
multiplyMatrices composes its arguments left-to-right, so applying its
result equals applying the arguments to the vertex from the last to the
first. -/
theorem multiply_compose_apply :
    (∀ (a b : Mat) (v : Fin 4 → ℚ),
      applyToVertex (mulMat a b) v = applyToVertex a (applyToVertex b v)) ∧
    (∀ (m : Mat) (ms : List Mat) (v : Fin 4 → ℚ),
      applyToVertex ((multiplyMatrices (m :: ms)).getD IDENTITY) v
        = (m :: ms).foldr applyToVertex v) := by
  have hpair : ∀ (a b : Mat) (v : Fin 4 → ℚ),
      applyToVertex (mulMat a b) v = applyToVertex a (applyToVertex b v) := by
    intro a b v
    funext i
    simp only [applyToVertex, mulMat, Fin.sum_univ_four]
    ring
  refine ⟨hpair, ?_⟩
  have hchain : ∀ (ms : List Mat) (m : Mat) (v : Fin 4 → ℚ),
      applyToVertex (matChain m ms) v = (m :: ms).foldr applyToVertex v := by
    intro ms
    induction ms with
    | nil => intro m v; rfl
    | cons m2 ms ih =>
      intro m v
      show applyToVertex (mulMat m (matChain m2 ms)) v
          = applyToVertex m (List.foldr applyToVertex v (m2 :: ms))
      rw [hpair, ih m2]
  intro m ms v
  rw [multiplyMatrices_cons, Option.getD_some, hchain]

/-- C5 counterexample: with zero arguments multiplyMatrices does not
raise; the pop on the empty argument array yields undefined and the
function returns it as an ordinary value, modelled as none. -/
theorem multiplyMatrices_nil_returns_undefined :
    multiplyMatrices ([] : List Mat) = none := rfl

/-- C5 amended: multiplyMatrices with zero arguments silently returns
the undefined value: it raises no error and in particular returns no
matrix, identity or otherwise. -/
theorem multiplyMatrices_nil_silent :
    multiplyMatrices ([] : List Mat) = none ∧
    ∀ m : Mat, multiplyMatrices ([] : List Mat) ≠ some m :=
  ⟨rfl, fun _ h => Option.noConfusion h⟩

/-- scale of src/transforms.js lines 126-137. The optional y and z
factors are Option values, none standing for an omitted or non-numeric
argument (the typeof checks at line 127); when both are absent the call
is isotropic and both factors are set to x. Entries of the returned
flat column-major array are Option values because a call with exactly
one of y, z absent produces an array containing the undefined value. -/
def scale (x : ℚ) (y z : Option ℚ) : List (Option ℚ) :=
  let yz : Option ℚ × Option ℚ :=
    if y.isNone && z.isNone then (some x, some x) else (y, z)
  [some x, some 0, some 0, some 0,
   some 0, yz.1, some 0, some 0,
   some 0, some 0, yz.2, some 0,
   some 0, some 0, some 0, some 1]

/-- C7: a single-argument scale call is isotropic: it returns, element
for element, the same matrix as the three-argument call with the factor
repeated on all three axes. -/
theorem scale_single_isotropic (x : ℚ) :
    scale x none none = scale x (some x) (some x) := rfl

/-- normalizeVertices of src/transforms.js lines 278-287: for each
4-component group, divide x, y and z by w and set w to 1. The recursion
consumes one full group per step, matching the loop with stride 4; a
trailing fragment shorter than four entries is returned unchanged (on
such an ill-formed batch the source loop reads past the end of the
array, a case outside every claim). In ℚ a division by w = 0 yields 0
rather than an IEEE infinity; the claim about this function assumes
w is nonzero. -/
def normalizeVertices : List ℚ → List ℚ
  | x :: y :: z :: w :: rest => x / w :: y / w :: z / w :: 1 :: normalizeVertices rest
  | l => l

/-- Dropping one full 4-component group shifts getD by four. -/
theorem getD_cons_four (a b c d e : ℚ) (l : List ℚ) (n : ℕ) :
    (a :: b :: c :: d :: l).getD (n + 4) e = l.getD n e := by
  show (a :: b :: c :: d :: l).getD (n + 1 + 1 + 1 + 1) e = l.getD n e
  simp [List.getD_cons_succ]

/-- C8: for every batch and every full 4-component group whose original
w entry is nonzero, after normalizeVertices the group's w entry is 1
and its x, y and z entries are the original values divided by the
original w. -/
theorem normalizeVertices_group (k : ℕ) : ∀ (v : List ℚ),
    4 * k + 3 < v.length →
    v.getD (4 * k + 3) 0 ≠ 0 →
    (normalizeVertices v).getD (4 * k) 0 = v.getD (4 * k) 0 / v.getD (4 * k + 3) 0 ∧
    (normalizeVertices v).getD (4 * k + 1) 0
      = v.getD (4 * k + 1) 0 / v.getD (4 * k + 3) 0 ∧
    (normalizeVertices v).getD (4 * k + 2) 0
      = v.getD (4 * k + 2) 0 / v.getD (4 * k + 3) 0 ∧
    (normalizeVertices v).getD (4 * k + 3) 0 = 1 := by
  induction k with
  | zero =>
    intro v h hw
    match v, h, hw with
    | [], h, _ => exact absurd h (by simp)
    | [a], h, _ => exact absurd h (by simp)
    | [a, b], h, _ => exact absurd h (by simp)
    | [a, b, c], h, _ => exact absurd h (by simp)
    | x :: y :: z :: w :: rest, _, hw =>
      refine ⟨?_, ?_, ?_, ?_⟩ <;> simp [normalizeVertices]
  | succ k ih =>
    intro v h hw
    match v, h, hw with
    | [], h, _ => exact absurd h (by simp)
    | [a], h, _ => exact absurd h (by simp)
    | [a, b], h, _ => exact absurd h (by simp)
    | [a, b, c], h, _ => exact absurd h (by simp)
    | x :: y :: z :: w :: rest, h, hw =>
      have e1 : 4 * (k + 1) + 1 = 4 * k + 1 + 4 := by ring
      have e2 : 4 * (k + 1) + 2 = 4 * k + 2 + 4 := by ring
      have e3 : 4 * (k + 1) + 3 = 4 * k + 3 + 4 := by ring
      have e0 : 4 * (k + 1) = 4 * k + 4 := by ring
      rw [e3] at hw
      rw [getD_cons_four] at hw
      have hlen : 4 * k + 3 < rest.length := by
        simp only [List.length_cons] at h
        omega
      have hrec := ih rest hlen hw
      show (x / w :: y / w :: z / w :: 1 :: normalizeVertices rest).getD (4 * (k + 1)) 0
            = _ ∧ _ ∧ _ ∧ _
      rw [e1, e2, e3, e0]
      simp only [getD_cons_four]
      exact hrec

/-- A single JavaScript array assignment on a flat numeric store:
writing q at address a. -/
def wr (σ : ℕ → ℚ) (a : ℕ) (q : ℚ) : ℕ → ℚ :=
  fun n => if n = a then q else σ n

/-- Destination component c of one transformed vertex whose four source
components are sx, sy, sz, sw: the right-hand sides of the four
assignments at src/transforms.js lines 265-268. -/
def outC (m : Mat) (sx sy sz sw : ℚ) (c : Fin 4) : ℚ :=
  m c 0 * sx + m c 1 * sy + m c 2 * sz + m c 3 * sw

/-- One iteration of the loop of applyToVertices, src/transforms.js
lines 259-269, on a flat store: the source buffer starts at address
asrc, the destination buffer at address adst, and the iteration handles
vertex offset i. The four source components are read into the locals
sx, sy, sz, sw first (lines 260-263) and only then are the four
destination cells written (lines 265-268). -/
def applyGroup (m : Mat) (asrc adst : ℕ) (σ : ℕ → ℚ) (i : ℕ) : ℕ → ℚ :=
  let sx := σ (asrc + i)
  let sy := σ (asrc + i + 1)
  let sz := σ (asrc + i + 2)
  let sw := σ (asrc + i + 3)
  wr (wr (wr (wr σ
    (adst + i) (outC m sx sy sz sw 0))
    (adst + i + 1) (outC m sx sy sz sw 1))
    (adst + i + 2) (outC m sx sy sz sw 2))
    (adst + i + 3) (outC m sx sy sz sw 3)

/-- The loop of applyToVertices from offset i with g iterations left. -/
def applyFrom (m : Mat) (asrc adst : ℕ) : ℕ → ℕ → (ℕ → ℚ) → ℕ → ℚ
  | _, 0, σ => σ
  | i, g + 1, σ => applyFrom m asrc adst (i + 4) g (applyGroup m asrc adst σ i)

/-- applyToVertices of src/transforms.js lines 236-270 on a flat store:
the loop runs i = 0, 4, 8, ... while i is not the source length il, so
for il a multiple of four it performs il / 4 iterations. (For any other
length the source loop never terminates; every claim assumes batch
lengths that are multiples of four.) Aliasing the buffers is expressed
by adst = asrc. -/
def applyToVertices (m : Mat) (asrc adst il : ℕ) (σ : ℕ → ℚ) : ℕ → ℚ :=
  applyFrom m asrc adst 0 (il / 4) σ

/-- One loop iteration leaves every cell outside its four destination
addresses unchanged. -/
theorem applyGroup_untouched (m : Mat) (asrc adst : ℕ) (σ : ℕ → ℚ) (i n : ℕ)
    (h : n < adst + i ∨ adst + i + 4 ≤ n) :
    applyGroup m asrc adst σ i n = σ n := by
  have h0 : n ≠ adst + i := by omega
  have h1 : n ≠ adst + i + 1 := by omega
  have h2 : n ≠ adst + i + 2 := by omega
  have h3 : n ≠ adst + i + 3 := by omega
  simp only [applyGroup, wr]
  rw [if_neg h3, if_neg h2, if_neg h1, if_neg h0]

/-- Value written by one loop iteration at its first destination cell. -/
theorem applyGroup_write0 (m : Mat) (asrc adst : ℕ) (σ : ℕ → ℚ) (i : ℕ) :
    applyGroup m asrc adst σ i (adst + i)
      = outC m (σ (asrc + i)) (σ (asrc + i + 1)) (σ (asrc + i + 2)) (σ (asrc + i + 3)) 0 := by
  simp only [applyGroup, wr]
  simp

/-- Value written by one loop iteration at its second destination cell. -/
theorem applyGroup_write1 (m : Mat) (asrc adst : ℕ) (σ : ℕ → ℚ) (i : ℕ) :
    applyGroup m asrc adst σ i (adst + i + 1)
      = outC m (σ (asrc + i)) (σ (asrc + i + 1)) (σ (asrc + i + 2)) (σ (asrc + i + 3)) 1 := by
  simp only [applyGroup, wr]
  simp

/-- Value written by one loop iteration at its third destination cell. -/
theorem applyGroup_write2 (m : Mat) (asrc adst : ℕ) (σ : ℕ → ℚ) (i : ℕ) :
    applyGroup m asrc adst σ i (adst + i + 2)
      = outC m (σ (asrc + i)) (σ (asrc + i + 1)) (σ (asrc + i + 2)) (σ (asrc + i + 3)) 2 := by
  simp only [applyGroup, wr]
  simp

/-- Value written by one loop iteration at its fourth destination cell. -/
theorem applyGroup_write3 (m : Mat) (asrc adst : ℕ) (σ : ℕ → ℚ) (i : ℕ) :
    applyGroup m asrc adst σ i (adst + i + 3)
      = outC m (σ (asrc + i)) (σ (asrc + i + 1)) (σ (asrc + i + 2)) (σ (asrc + i + 3)) 3 := by
  simp only [applyGroup, wr]
  simp

/-- The remaining loop iterations leave every cell outside their
destination window unchanged. -/
theorem applyFrom_untouched (m : Mat) (asrc adst : ℕ) : ∀ (g i : ℕ) (σ : ℕ → ℚ) (n : ℕ),
    (n < adst + i ∨ adst + i + 4 * g ≤ n) →
    applyFrom m asrc adst i g σ n = σ n := by
  intro g
  induction g with
  | zero => intro i σ n _; rfl
  | succ g ih =>
    intro i σ n h
    show applyFrom m asrc adst (i + 4) g (applyGroup m asrc adst σ i) n = σ n
    rw [ih (i + 4) _ n (by omega)]
    exact applyGroup_untouched m asrc adst σ i n (by omega)

/-- Closed form of the aliased run (destination = source buffer): each
written cell of group k holds the transform of the original source
components of group k, because every group's reads happen before its
own writes and later groups never touch earlier addresses. -/
theorem applyFrom_aliased (m : Mat) (asrc : ℕ) : ∀ (g i : ℕ) (σ : ℕ → ℚ) (k : ℕ),
    k < g →
    (applyFrom m asrc asrc i g σ (asrc + i + 4 * k)
        = outC m (σ (asrc + i + 4 * k)) (σ (asrc + i + 4 * k + 1))
            (σ (asrc + i + 4 * k + 2)) (σ (asrc + i + 4 * k + 3)) 0) ∧
    (applyFrom m asrc asrc i g σ (asrc + i + 4 * k + 1)
        = outC m (σ (asrc + i + 4 * k)) (σ (asrc + i + 4 * k + 1))
            (σ (asrc + i + 4 * k + 2)) (σ (asrc + i + 4 * k + 3)) 1) ∧
    (applyFrom m asrc asrc i g σ (asrc + i + 4 * k + 2)
        = outC m (σ (asrc + i + 4 * k)) (σ (asrc + i + 4 * k + 1))
            (σ (asrc + i + 4 * k + 2)) (σ (asrc + i + 4 * k + 3)) 2) ∧
    (applyFrom m asrc asrc i g σ (asrc + i + 4 * k + 3)
        = outC m (σ (asrc + i + 4 * k)) (σ (asrc + i + 4 * k + 1))
            (σ (asrc + i + 4 * k + 2)) (σ (asrc + i + 4 * k + 3)) 3) := by
  intro g
  induction g with
  | zero => intro i σ k hk; omega
  | succ g ih =>
    intro i σ k hk
    cases k with
    | zero =>
      simp only [Nat.mul_zero, Nat.add_zero]
      show applyFrom m asrc asrc (i + 4) g (applyGroup m asrc asrc σ i) (asrc + i) = _ ∧
        applyFrom m asrc asrc (i + 4) g (applyGroup m asrc asrc σ i) (asrc + i + 1) = _ ∧
        applyFrom m asrc asrc (i + 4) g (applyGroup m asrc asrc σ i) (asrc + i + 2) = _ ∧
        applyFrom m asrc asrc (i + 4) g (applyGroup m asrc asrc σ i) (asrc + i + 3) = _
      rw [applyFrom_untouched m asrc asrc g (i + 4) _ _ (by omega),
          applyFrom_untouched m asrc asrc g (i + 4) _ _ (by omega),
          applyFrom_untouched m asrc asrc g (i + 4) _ _ (by omega),
          applyFrom_untouched m asrc asrc g (i + 4) _ _ (by omega)]
      exact ⟨applyGroup_write0 m asrc asrc σ i, applyGroup_write1 m asrc asrc σ i,
        applyGroup_write2 m asrc asrc σ i, applyGroup_write3 m asrc asrc σ i⟩
    | succ k =>
      show applyFrom m asrc asrc (i + 4) g (applyGroup m asrc asrc σ i)
              (asrc + i + 4 * (k + 1)) = _ ∧
        applyFrom m asrc asrc (i + 4) g (applyGroup m asrc asrc σ i)
              (asrc + i + 4 * (k + 1) + 1) = _ ∧
        applyFrom m asrc asrc (i + 4) g (applyGroup m asrc asrc σ i)
              (asrc + i + 4 * (k + 1) + 2) = _ ∧
        applyFrom m asrc asrc (i + 4) g (applyGroup m asrc asrc σ i)
              (asrc + i + 4 * (k + 1) + 3) = _
      have ea : asrc + i + 4 * (k + 1) = asrc + (i + 4) + 4 * k := by ring
      have e1 : asrc + i + 4 * (k + 1) + 1 = asrc + (i + 4) + 4 * k + 1 := by omega
      have e2 : asrc + i + 4 * (k + 1) + 2 = asrc + (i + 4) + 4 * k + 2 := by omega
      have e3 : asrc + i + 4 * (k + 1) + 3 = asrc + (i + 4) + 4 * k + 3 := by omega
      rw [e1, e2, e3, ea]
      have hread : ∀ j : ℕ, applyGroup m asrc asrc σ i (asrc + (i + 4) + 4 * k + j)
          = σ (asrc + (i + 4) + 4 * k + j) := fun j =>
        applyGroup_untouched m asrc asrc σ i _ (by omega)
      have hread0 : applyGroup m asrc asrc σ i (asrc + (i + 4) + 4 * k)
          = σ (asrc + (i + 4) + 4 * k) :=
        applyGroup_untouched m asrc asrc σ i _ (by omega)
      obtain ⟨g0, g1, g2, g3⟩ := ih (i + 4) (applyGroup m asrc asrc σ i) k (by omega)
      rw [g0, g1, g2, g3, hread0, hread 1, hread 2, hread 3]
      exact ⟨rfl, rfl, rfl, rfl⟩

/-- Closed form of the run into a disjoint destination buffer: when the
whole source window read by the remaining iterations lies strictly
before the destination buffer, each destination cell of group k holds
the transform of the original source components of group k. -/
theorem applyFrom_separate (m : Mat) (asrc adst : ℕ) : ∀ (g i : ℕ) (σ : ℕ → ℚ) (k : ℕ),
    k < g →
    asrc + 4 * g ≤ adst →
    (applyFrom m asrc adst i g σ (adst + i + 4 * k)
        = outC m (σ (asrc + i + 4 * k)) (σ (asrc + i + 4 * k + 1))
            (σ (asrc + i + 4 * k + 2)) (σ (asrc + i + 4 * k + 3)) 0) ∧
    (applyFrom m asrc adst i g σ (adst + i + 4 * k + 1)
        = outC m (σ (asrc + i + 4 * k)) (σ (asrc + i + 4 * k + 1))
            (σ (asrc + i + 4 * k + 2)) (σ (asrc + i + 4 * k + 3)) 1) ∧
    (applyFrom m asrc adst i g σ (adst + i + 4 * k + 2)
        = outC m (σ (asrc + i + 4 * k)) (σ (asrc + i + 4 * k + 1))
            (σ (asrc + i + 4 * k + 2)) (σ (asrc + i + 4 * k + 3)) 2) ∧
    (applyFrom m asrc adst i g σ (adst + i + 4 * k + 3)
        = outC m (σ (asrc + i + 4 * k)) (σ (asrc + i + 4 * k + 1))
            (σ (asrc + i + 4 * k + 2)) (σ (asrc + i + 4 * k + 3)) 3) := by
  intro g
  induction g with
  | zero => intro i σ k hk _; omega
  | succ g ih =>
    intro i σ k hk hd
    cases k with
    | zero =>
      simp only [Nat.mul_zero, Nat.add_zero]
      show applyFrom m asrc adst (i + 4) g (applyGroup m asrc adst σ i) (adst + i) = _ ∧
        applyFrom m asrc adst (i + 4) g (applyGroup m asrc adst σ i) (adst + i + 1) = _ ∧
        applyFrom m asrc adst (i + 4) g (applyGroup m asrc adst σ i) (adst + i + 2) = _ ∧
        applyFrom m asrc adst (i + 4) g (applyGroup m asrc adst σ i) (adst + i + 3) = _
      rw [applyFrom_untouched m asrc adst g (i + 4) _ _ (by omega),
          applyFrom_untouched m asrc adst g (i + 4) _ _ (by omega),
          applyFrom_untouched m asrc adst g (i + 4) _ _ (by omega),
          applyFrom_untouched m asrc adst g (i + 4) _ _ (by omega)]
      exact ⟨applyGroup_write0 m asrc adst σ i, applyGroup_write1 m asrc adst σ i,
        applyGroup_write2 m asrc adst σ i, applyGroup_write3 m asrc adst σ i⟩
    | succ k =>
      show applyFrom m asrc adst (i + 4) g (applyGroup m asrc adst σ i)
              (adst + i + 4 * (k + 1)) = _ ∧
        applyFrom m asrc adst (i + 4) g (applyGroup m asrc adst σ i)
              (adst + i + 4 * (k + 1) + 1) = _ ∧
        applyFrom m asrc adst (i + 4) g (applyGroup m asrc adst σ i)
              (adst + i + 4 * (k + 1) + 2) = _ ∧
        applyFrom m asrc adst (i + 4) g (applyGroup m asrc adst σ i)
              (adst + i + 4 * (k + 1) + 3) = _
      have ea : adst + i + 4 * (k + 1) = adst + (i + 4) + 4 * k := by ring
      have e1 : adst + i + 4 * (k + 1) + 1 = adst + (i + 4) + 4 * k + 1 := by omega
      have e2 : adst + i + 4 * (k + 1) + 2 = adst + (i + 4) + 4 * k + 2 := by omega
      have e3 : adst + i + 4 * (k + 1) + 3 = adst + (i + 4) + 4 * k + 3 := by omega
      rw [e1, e2, e3, ea]
      obtain ⟨g0, g1, g2, g3⟩ := ih (i + 4) (applyGroup m asrc adst σ i) k (by omega) (by omega)
      have hread : ∀ j : ℕ, j < 4 → applyGroup m asrc adst σ i (asrc + (i + 4) + 4 * k + j)
          = σ (asrc + (i + 4) + 4 * k + j) := fun j hj =>
        applyGroup_untouched m asrc adst σ i _ (by omega)
      have hread0 : applyGroup m asrc adst σ i (asrc + (i + 4) + 4 * k)
          = σ (asrc + (i + 4) + 4 * k) :=
        applyGroup_untouched m asrc adst σ i _ (by omega)
      rw [g0, g1, g2, g3, hread0, hread 1 (by omega), hread 2 (by omega), hread 3 (by omega)]
      have es : ∀ j : ℕ, asrc + (i + 4) + 4 * k + j = asrc + i + 4 * (k + 1) + j := by
        intro j; omega
      have es0 : asrc + (i + 4) + 4 * k = asrc + i + 4 * (k + 1) := by omega
      rw [es 1, es 2, es 3, es0]
      exact ⟨rfl, rfl, rfl, rfl⟩

/-- C6: applyToVertices is alias-safe. Transforming a batch of length
il (a multiple of four) in place, destination aliased onto the source
at address 0, leaves every cell below il equal to the corresponding
cell that a run into a disjoint fresh buffer at address il produces. -/
theorem applyToVertices_alias_safe (m : Mat) (σ : ℕ → ℚ) (il : ℕ)
    (h4 : 4 ∣ il) (n : ℕ) (hn : n < il) :
    applyToVertices m 0 0 il σ n = applyToVertices m 0 il il σ (il + n) := by
  obtain ⟨g, rfl⟩ := h4
  have hg : 4 * g / 4 = g := by omega
  unfold applyToVertices
  rw [hg]
  have hk : n / 4 < g := by omega
  have hsplit : n = 4 * (n / 4) + n % 4 := by omega
  have hd : (0 : ℕ) + 4 * g ≤ 4 * g := by omega
  obtain ⟨a0, a1, a2, a3⟩ := applyFrom_aliased m 0 g 0 σ (n / 4) hk
  obtain ⟨s0, s1, s2, s3⟩ := applyFrom_separate m 0 (4 * g) g 0 σ (n / 4) hk hd
  have hm : n % 4 = 0 ∨ n % 4 = 1 ∨ n % 4 = 2 ∨ n % 4 = 3 := by omega
  rcases hm with h | h | h | h
  · rw [show n = 0 + 0 + 4 * (n / 4) from by omega, a0,
        show 4 * g + (0 + 0 + 4 * (n / 4)) = 4 * g + 0 + 4 * (n / 4) from by omega, s0]
  · rw [show n = 0 + 0 + 4 * (n / 4) + 1 from by omega, a1,
        show 4 * g + (0 + 0 + 4 * (n / 4) + 1) = 4 * g + 0 + 4 * (n / 4) + 1 from by omega, s1]
  · rw [show n = 0 + 0 + 4 * (n / 4) + 2 from by omega, a2,
        show 4 * g + (0 + 0 + 4 * (n / 4) + 2) = 4 * g + 0 + 4 * (n / 4) + 2 from by omega, s2]
  · rw [show n = 0 + 0 + 4 * (n / 4) + 3 from by omega, a3,
        show 4 * g + (0 + 0 + 4 * (n / 4) + 3) = 4 * g + 0 + 4 * (n / 4) + 3 from by omega, s3]

/-- Witness for C6 on a concrete matrix, store, length and cell. -/
theorem applyToVertices_alias_safe_witness :
    (4 ∣ 4) ∧ (1 : ℕ) < 4 ∧
    applyToVertices (fun _ _ => (1 : ℚ)) 0 0 4 (fun n => (n : ℚ)) 1
      = applyToVertices (fun _ _ => (1 : ℚ)) 0 4 4 (fun n => (n : ℚ)) (4 + 1) :=
  ⟨⟨1, rfl⟩, by norm_num,
    applyToVertices_alias_safe (fun _ _ => (1 : ℚ)) (fun n => (n : ℚ)) 4
      ⟨1, rfl⟩ 1 (by norm_num)⟩

/-- Witness for C8 on the concrete batch with one group (2, 4, 6, 2). -/
theorem normalizeVertices_group_witness :
    4 * 0 + 3 < ([2, 4, 6, 2] : List ℚ).length ∧
    ([2, 4, 6, 2] : List ℚ).getD (4 * 0 + 3) 0 ≠ 0 ∧
    (normalizeVertices [2, 4, 6, 2]).getD (4 * 0 + 3) 0 = 1 :=
  ⟨by simp, by norm_num,
    (normalizeVertices_group 0 [2, 4, 6, 2] (by simp) (by norm_num)).2.2.2⟩

end Transforms
